import Mathlib

/-!
# Verification of the Organizer file-sorting program

A shallow embedding of src/Organizer.py: a menu-driven script that sorts the
files of one directory into seven fixed category folders, records each move in
a "last_undo.log" ledger (one "dest|orig" line per move) and can undo the last
sort from that ledger.

The filesystem is modelled one directory deep, exactly the depth the program
touches: the working directory is a list of root file names, an association
list of subfolders (each with the list of file names it holds), and the
persisted undo ledger.  The Sort_Logs folder and the per-session log files are
pure observational output (the program never reads them back) and are not part
of the state; the ledger file is modelled structurally as the list of records
it holds, with its character-level line format verified separately
(serializeLine / splitOnce).  Paths written to the ledger are always of the
two shapes the program produces: root/name for sources and root/folder/name
for destinations, so records carry the three name components.  A move of the
underlying filesystem can fail (permissions, concurrent deletion); the code
calls shutil.move without any handler, which is embedded as an Except value:
organize takes an oracle saying which moves raise and propagates the raise as
.error carrying the mutated-so-far state.
-/

namespace Organizer

/-- Character-wise lowercasing, modelling Python str.lower on the ASCII
extension strings the program compares. -/
def lowerStr (s : String) : String := ⟨s.data.map Char.toLower⟩

/-- Character-wise uppercasing, modelling Python str.upper (used only to state
case-insensitivity of the classifier). -/
def upperStr (s : String) : String := ⟨s.data.map Char.toUpper⟩

/-- The extension table of get_category, Organizer.py lines 118-144. -/
def mapping : List (String × String) :=
  [(".png", "Images"), (".jpg", "Images"), (".jpeg", "Images"), (".gif", "Images"),
   (".bmp", "Images"), (".webp", "Images"), (".svg", "Images"), (".ico", "Images"),
   (".tiff", "Images"),
   (".mp4", "Videos"), (".mkv", "Videos"), (".avi", "Videos"), (".mov", "Videos"),
   (".wmv", "Videos"), (".flv", "Videos"), (".webm", "Videos"), (".m4v", "Videos"),
   (".mp3", "Music"), (".wav", "Music"), (".flac", "Music"), (".aac", "Music"),
   (".ogg", "Music"), (".m4a", "Music"), (".wma", "Music"),
   (".pdf", "Documents"), (".txt", "Documents"), (".doc", "Documents"),
   (".docx", "Documents"), (".xls", "Documents"), (".xlsx", "Documents"),
   (".ppt", "Documents"), (".pptx", "Documents"),
   (".exe", "Programs"), (".msi", "Programs"), (".deb", "Programs"),
   (".dmg", "Programs"),
   (".zip", "Archives"), (".rar", "Archives"), (".7z", "Archives"),
   (".tar", "Archives"), (".gz", "Archives"), (".bz2", "Archives")]

/-- get_category, Organizer.py lines 111-146: lowercase the extension, look it
up in the table, default to "Others". -/
def get_category (ext : String) : String :=
  (mapping.lookup (lowerStr ext)).getD "Others"

/-- The seven category folder names, in the order undo prunes them
(Organizer.py line 244). -/
def ALL_CATEGORIES : List String :=
  ["Images", "Videos", "Music", "Documents", "Programs", "Archives", "Others"]

/-- Index of the last '.' of a character list, if any. -/
def lastDotIdx : List Char → Option Nat
  | [] => none
  | c :: cs =>
    match lastDotIdx cs with
    | some i => some (i + 1)
    | none => if c = '.' then some 0 else none

/-- Python pathlib Path.suffix of a file name: the part from the last dot on,
provided that dot is neither the first nor the last character; otherwise "". -/
def pySuffix (name : String) : String :=
  match lastDotIdx name.data with
  | some i => if 0 < i ∧ i + 1 < name.data.length then ⟨name.data.drop i⟩ else ""
  | none => ""

/-- Python pathlib Path.stem of a file name: the name with pySuffix removed. -/
def pyStem (name : String) : String :=
  match lastDotIdx name.data with
  | some i => if 0 < i ∧ i + 1 < name.data.length then ⟨name.data.take i⟩ else name
  | none => name

/-- The numbered candidate name of the collision loop, Organizer.py line 181:
the f-string stem_i suffix. -/
def numbered (stem suffix : String) (i : Nat) : String :=
  stem ++ "_" ++ Nat.repr i ++ suffix

/-- The collision while-loop of Organizer.py lines 179-183: try
numbered stem suffix i for i = start, start+1, ... until the name is free.
The fuel argument bounds the search; resolveDest passes enough fuel for the
search to always end at a free name (searchFrom_spec). -/
def searchFrom (existing : List String) (stem suffix : String) : Nat → Nat → String
  | 0, i => numbered stem suffix i
  | fuel + 1, i =>
    if numbered stem suffix i ∈ existing then searchFrom existing stem suffix fuel (i + 1)
    else numbered stem suffix i

/-- Destination file-name computation with collision handling, Organizer.py
lines 175-183: keep the original name when free, otherwise search stem_1,
stem_2, ... for the first free numbered name. -/
def resolveDest (existing : List String) (stem suffix : String) : String :=
  if stem ++ suffix ∈ existing then
    searchFrom existing stem suffix (existing.length + 1) 1
  else stem ++ suffix

/-- One ledger record (Organizer.py line 189): the file was moved to
destFolder/destName and came from root file origName. -/
structure MoveRecord where
  destFolder : String
  destName : String
  origName : String
deriving DecidableEq

/-- Subdirectories of the working directory: folder name to the names of the
files it holds directly. -/
abbrev Dirs := List (String × List String)

/-- Files of a subfolder; a folder that does not exist is read as empty. -/
def dirFiles (dirs : Dirs) (name : String) : List String :=
  (dirs.lookup name).getD []

/-- Existence test for a subfolder. -/
def hasDir (dirs : Dirs) (name : String) : Bool :=
  (dirs.lookup name).isSome

/-- Path.mkdir(exist_ok=True), Organizer.py line 172: create the folder when
absent, do nothing when it already exists. -/
def mkdirIfAbsent (dirs : Dirs) (name : String) : Dirs :=
  if hasDir dirs name then dirs else dirs ++ [(name, [])]

/-- Pointwise update of one subfolder's file list. -/
def modifyDir (dirs : Dirs) (folder : String) (g : List String → List String) : Dirs :=
  dirs.map fun p => if p.1 = folder then (p.1, g p.2) else p

/-- Arrival of a moved file in a subfolder. -/
def addFile (dirs : Dirs) (folder file : String) : Dirs :=
  modifyDir dirs folder (fun l => l ++ [file])

/-- Departure of a moved file from a subfolder. -/
def removeFile (dirs : Dirs) (folder file : String) : Dirs :=
  modifyDir dirs folder (fun l => l.erase file)

/-- The working directory: its root files, its subfolders, and the persisted
undo ledger (none when Sort_Logs/last_undo.log does not exist). -/
structure FS where
  rootFiles : List String
  dirs : Dirs
  ledger : Option (List MoveRecord)
deriving DecidableEq

/-- The literal self-exclusion name of Organizer.py line 165. -/
def SELF_NAME : String := "organizer.py"

/-- Category of a root file, as organize computes it at line 168. -/
def category_of (name : String) : String := get_category (pySuffix name)

/-- The scan loop of organize, Organizer.py lines 163-192, over the upfront
snapshot of directory entries.  For each non-self file: classify, create the
category folder, resolve the destination name against the folder's current
contents, then move.  The failAt oracle says which underlying shutil.move
calls raise; a raise propagates immediately (there is no handler in the
source), carrying the state mutated so far. -/
def orgGo (failAt : String → Bool) :
    List String → List String → Dirs → List MoveRecord →
      Except (List String × Dirs) (List String × Dirs × List MoveRecord)
  | [], root, dirs, moves => .ok (root, dirs, moves)
  | item :: rest, root, dirs, moves =>
    if item = SELF_NAME then orgGo failAt rest root dirs moves
    else
      let category := category_of item
      let dirs1 := mkdirIfAbsent dirs category
      let destName := resolveDest (dirFiles dirs1 category) (pyStem item) (pySuffix item)
      if failAt item then .error (root, dirs1)
      else
        orgGo failAt rest (root.erase item) (addFile dirs1 category destName)
          (moves ++ [⟨category, destName, item⟩])

/-- organize, Organizer.py lines 155-208: run the scan loop; on normal
completion write the ledger (overwriting any previous one) and report the
total number of files moved; a raised move error propagates to the caller
with the ledger file untouched. -/
def organize (failAt : String → Bool) (fs : FS) : Except FS (FS × Nat) :=
  match orgGo failAt fs.rootFiles fs.rootFiles fs.dirs [] with
  | .error (root, dirs) => .error ⟨root, dirs, fs.ledger⟩
  | .ok (root, dirs, moves) => .ok (⟨root, dirs, some moves⟩, moves.length)

/-- Outcome of undo as reported to the user: either the no-ledger message of
Organizer.py line 219, or completion with the count of restored files. -/
inductive UndoResult where
  | noPriorSort
  | done (restored : Nat)
deriving DecidableEq

/-- The restore loop of undo, Organizer.py lines 225-241: for each record in
ledger order, if the destination still exists move the file back to its
original root name (replacing any file that reoccupied that name, as
shutil.move does) and count it; otherwise skip the record. -/
def undoGo : List MoveRecord → List String → Dirs → Nat → List String × Dirs × Nat
  | [], root, dirs, cnt => (root, dirs, cnt)
  | r :: rest, root, dirs, cnt =>
    if r.destName ∈ dirFiles dirs r.destFolder then
      undoGo rest (if r.origName ∈ root then root else root ++ [r.origName])
        (removeFile dirs r.destFolder r.destName) (cnt + 1)
    else undoGo rest root dirs cnt

/-- The pruning pass of undo, Organizer.py lines 243-247: remove every
category-named folder that exists and is empty. -/
def pruneEmptyCategoryFolders (dirs : Dirs) : Dirs :=
  dirs.filter fun p => !(ALL_CATEGORIES.contains p.1 && p.2.isEmpty)

/-- undo, Organizer.py lines 216-252: report noPriorSort when no ledger file
exists (touching nothing); otherwise restore the records, prune empty
category folders, delete the ledger and report the restore count. -/
def undo (fs : FS) : FS × UndoResult :=
  match fs.ledger with
  | none => (fs, .noPriorSort)
  | some records =>
    let (root, dirs, cnt) := undoGo records fs.rootFiles fs.dirs 0
    (⟨root, pruneEmptyCategoryFolders dirs, none⟩, .done cnt)

/-- Ledger line written at Organizer.py line 206: the f-string dest|orig (the
trailing newline is the line separator and is consumed by line iteration and
strip on the reading side). -/
def serializeLine (dest orig : List Char) : List Char := dest ++ '|' :: orig

/-- Ledger line parse at Organizer.py line 231: str.split(sep, 1), splitting
at the first separator only; none models the ValueError of unpacking when the
separator does not occur. -/
def splitOnce (sep : Char) : List Char → Option (List Char × List Char)
  | [] => none
  | c :: cs =>
    if c = sep then some ([], cs)
    else
      match splitOnce sep cs with
      | some p => some (c :: p.1, p.2)
      | none => none

example : get_category ".PNG" = "Images" := by decide
example : get_category "png" = "Others" := by decide
example : pySuffix "a.txt" = ".txt" ∧ pyStem "a.txt" = "a" := by decide
example : pySuffix ".bashrc" = "" ∧ pyStem "file." = "file." := by decide
example : resolveDest ["a.txt"] "a" ".txt" = "a_1.txt" := by decide
example :
    organize (fun _ => false) ⟨["a.txt", "x.png"], [], none⟩ =
      .ok (⟨[], [("Documents", ["a.txt"]), ("Images", ["x.png"])],
        some [⟨"Documents", "a.txt", "a.txt"⟩, ⟨"Images", "x.png", "x.png"⟩]⟩, 2) := by
  rfl

/-! ## Decimal rendering

Nat.repr (the meaning of the f-string number in the collision loop) is
injective; proved by decoding the digit string back to the number. -/

/-- Decimal value of a digit character. -/
def digitVal (c : Char) : Nat := c.toNat - 48

/-- Decimal decode of a most-significant-first digit string. -/
def decodeDigits (l : List Char) : Nat := l.foldl (fun a c => a * 10 + digitVal c) 0

theorem toDigitsCore_append_eq (fuel : Nat) :
    ∀ (n : Nat) (ds : List Char),
      Nat.toDigitsCore 10 fuel n ds = Nat.toDigitsCore 10 fuel n [] ++ ds := by
  induction fuel with
  | zero => intro n ds; rfl
  | succ fuel ih =>
    intro n ds
    simp only [Nat.toDigitsCore]
    by_cases h : n / 10 = 0
    · simp [h]
    · simp only [if_neg h]
      rw [ih (n / 10) (Nat.digitChar (n % 10) :: ds), ih (n / 10) [Nat.digitChar (n % 10)]]
      simp

theorem digitVal_digitChar {m : Nat} (h : m < 10) : digitVal (Nat.digitChar m) = m := by
  interval_cases m <;> decide

theorem decodeDigits_toDigitsCore :
    ∀ (fuel n : Nat), n < fuel → decodeDigits (Nat.toDigitsCore 10 fuel n []) = n := by
  intro fuel
  induction fuel with
  | zero => intro n h; exact absurd h (Nat.not_lt_zero n)
  | succ fuel ih =>
    intro n hn
    simp only [Nat.toDigitsCore]
    by_cases h : n / 10 = 0
    · simp only [if_pos h]
      have h10 : n < 10 := by omega
      have : decodeDigits [Nat.digitChar (n % 10)] = n % 10 := by
        simp [decodeDigits, digitVal_digitChar (Nat.mod_lt n (by norm_num))]
      rw [this]; omega
    · simp only [if_neg h]
      rw [toDigitsCore_append_eq]
      have hlt : n / 10 < fuel := by omega
      have hdec := ih (n / 10) hlt
      simp only [decodeDigits, List.foldl_append, List.foldl] at *
      rw [hdec, digitVal_digitChar (Nat.mod_lt n (by omega))]
      omega

theorem decodeDigits_repr (n : Nat) : decodeDigits (Nat.repr n).data = n :=
  decodeDigits_toDigitsCore (n + 1) n (Nat.lt_succ_self n)

theorem repr_inj {a b : Nat} (h : Nat.repr a = Nat.repr b) : a = b := by
  have h2 := congrArg (fun s => decodeDigits s.data) h
  simpa [decodeDigits_repr] using h2

theorem numbered_inj (stem suffix : String) {i j : Nat}
    (h : numbered stem suffix i = numbered stem suffix j) : i = j := by
  unfold numbered at h
  have h2 := congrArg String.data h
  simp only [String.data_append] at h2
  have h3 := List.append_cancel_left (List.append_cancel_right h2)
  have h4 : Nat.repr i = Nat.repr j := by
    cases hi : Nat.repr i with
    | mk di =>
      cases hj : Nat.repr j with
      | mk dj =>
        rw [hi, hj] at h3
        exact congrArg String.mk h3
  exact repr_inj h4

/-! ## Collision search -/

theorem exists_free_numbered (existing : List String) (stem suffix : String) (i : Nat) :
    ∃ k, k ≤ existing.length ∧ numbered stem suffix (i + k) ∉ existing := by
  by_contra hc
  push_neg at hc
  set cands := (List.range (existing.length + 1)).map (fun k => numbered stem suffix (i + k))
    with hcands
  have hnd : cands.Nodup := by
    refine List.Nodup.map ?_ (List.nodup_range _)
    intro a b hab
    have := numbered_inj stem suffix hab
    omega
  have hsub : cands ⊆ existing := by
    intro x hx
    rw [hcands, List.mem_map] at hx
    obtain ⟨k, hk, rfl⟩ := hx
    exact hc k (by simpa using Nat.lt_succ_iff.mp (List.mem_range.mp hk))
  have hlen := (hnd.subperm hsub).length_le
  simp [hcands] at hlen

theorem searchFrom_spec (existing : List String) (stem suffix : String) :
    ∀ (fuel i : Nat), (∃ k, k < fuel ∧ numbered stem suffix (i + k) ∉ existing) →
      ∃ m, searchFrom existing stem suffix fuel i = numbered stem suffix (i + m) ∧
        numbered stem suffix (i + m) ∉ existing ∧
        ∀ k, k < m → numbered stem suffix (i + k) ∈ existing := by
  intro fuel
  induction fuel with
  | zero => intro i ⟨k, hk, _⟩; exact absurd hk (Nat.not_lt_zero k)
  | succ fuel ih =>
    intro i ⟨k, hk, hfree⟩
    by_cases h : numbered stem suffix i ∈ existing
    · have hk0 : k ≠ 0 := by rintro rfl; simp at hfree; exact hfree h
      have heq : i + 1 + (k - 1) = i + k := by omega
      have hfree' : numbered stem suffix (i + 1 + (k - 1)) ∉ existing := by
        rw [heq]; exact hfree
      obtain ⟨m, hm1, hm2, hm3⟩ := ih (i + 1) ⟨k - 1, by omega, hfree'⟩
      refine ⟨m + 1, ?_, ?_, ?_⟩
      · simp only [searchFrom, if_pos h]
        rw [hm1]; congr 1; omega
      · have : i + (m + 1) = i + 1 + m := by omega
        rw [this]; exact hm2
      · intro j hj
        cases j with
        | zero => simpa using h
        | succ j =>
          have : i + (j + 1) = i + 1 + j := by omega
          rw [this]; exact hm3 j (by omega)
    · exact ⟨0, by simp [searchFrom, if_neg h], by simpa using h, by omega⟩

/-! ## Ledger line format -/

theorem splitOnce_no_sep {sep : Char} :
    ∀ {l a b : List Char}, splitOnce sep l = some (a, b) → sep ∉ a := by
  intro l
  induction l with
  | nil => intro a b h; simp [splitOnce] at h
  | cons c cs ih =>
    intro a b h
    by_cases hc : c = sep
    · simp only [splitOnce, if_pos hc] at h
      obtain ⟨rfl, rfl⟩ := Prod.mk.injEq .. ▸ (Option.some.injEq .. ▸ h)
      simp
    · simp only [splitOnce, if_neg hc] at h
      cases hsp : splitOnce sep cs with
      | none => rw [hsp] at h; simp at h
      | some p =>
        rw [hsp] at h
        simp only [Option.some.injEq] at h
        obtain ⟨rfl, rfl⟩ := Prod.mk.injEq .. ▸ h
        intro hmem
        rcases List.mem_cons.mp hmem with h1 | h1
        · exact hc h1.symm
        · exact ih (by rw [hsp]) h1

theorem splitOnce_of_no_sep {sep : Char} :
    ∀ {d : List Char} (o : List Char), sep ∉ d →
      splitOnce sep (d ++ sep :: o) = some (d, o) := by
  intro d
  induction d with
  | nil => intro o _; simp [splitOnce]
  | cons c cs ih =>
    intro o hd
    have hc : c ≠ sep := fun h => hd (h ▸ List.mem_cons_self c cs)
    have hcs : sep ∉ cs := fun h => hd (List.mem_cons_of_mem c h)
    simp only [List.cons_append, splitOnce, if_neg hc, List.append_eq]
    rw [ih o hcs]

/-! ## File names: stem and suffix -/

theorem stem_append_suffix (name : String) : pyStem name ++ pySuffix name = name := by
  apply String.ext
  simp only [String.data_append]
  unfold pyStem pySuffix
  cases h : lastDotIdx name.data with
  | none => simp
  | some i =>
    by_cases hc : 0 < i ∧ i + 1 < name.data.length
    · simp only [if_pos hc]
      exact List.take_append_drop i name.data
    · simp only [if_neg hc]
      simp

/-! ## Directory map lemmas -/

/-- Folder names of a directory map. -/
def dirKeys (dirs : Dirs) : List String := dirs.map Prod.fst

theorem hasDir_iff {dirs : Dirs} {n : String} : hasDir dirs n = true ↔ n ∈ dirKeys dirs := by
  simp only [hasDir, dirKeys, List.lookup_isSome_iff, List.mem_map, beq_iff_eq]
  exact ⟨fun ⟨p, hp, he⟩ => ⟨p, hp, he.symm⟩, fun ⟨p, hp, he⟩ => ⟨p, hp, he.symm⟩⟩

theorem lookup_eq_none_of_not_mem {dirs : Dirs} {n : String} (h : n ∉ dirKeys dirs) :
    dirs.lookup n = none := by
  rw [List.lookup_eq_none_iff]
  intro p hp
  simp only [bne_iff_ne, ne_eq]
  intro he
  exact h (he ▸ List.mem_map_of_mem Prod.fst hp)

theorem dirFiles_mkdirIfAbsent (dirs : Dirs) (c n : String) :
    dirFiles (mkdirIfAbsent dirs c) n = dirFiles dirs n := by
  unfold mkdirIfAbsent dirFiles
  by_cases h : hasDir dirs c
  · rw [if_pos h]
  · rw [if_neg h, List.lookup_append]
    cases hl : dirs.lookup n with
    | some v => simp
    | none =>
      simp only [Option.none_or]
      rw [List.lookup_cons]
      split <;> simp

theorem hasDir_mkdirIfAbsent_self (dirs : Dirs) (c : String) :
    hasDir (mkdirIfAbsent dirs c) c = true := by
  unfold mkdirIfAbsent
  by_cases h : hasDir dirs c
  · rw [if_pos h]; exact h
  · rw [if_neg h]
    unfold hasDir at *
    rw [List.lookup_append, Option.not_isSome_iff_eq_none.mp h]
    simp [List.lookup_cons]

theorem hasDir_mkdirIfAbsent_mono {dirs : Dirs} {n : String} (c : String)
    (h : hasDir dirs n = true) : hasDir (mkdirIfAbsent dirs c) n = true := by
  unfold mkdirIfAbsent
  split
  · exact h
  · unfold hasDir at *
    rw [List.lookup_append]
    obtain ⟨v, hv⟩ := Option.isSome_iff_exists.mp h
    simp [hv]

theorem dirKeys_mkdirIfAbsent (dirs : Dirs) (c : String) :
    dirKeys (mkdirIfAbsent dirs c) =
      if hasDir dirs c then dirKeys dirs else dirKeys dirs ++ [c] := by
  unfold mkdirIfAbsent dirKeys
  split <;> simp

theorem nodupKeys_mkdirIfAbsent {dirs : Dirs} (c : String)
    (h : (dirKeys dirs).Nodup) : (dirKeys (mkdirIfAbsent dirs c)).Nodup := by
  rw [dirKeys_mkdirIfAbsent]
  split
  · exact h
  · rename_i hc
    have : c ∉ dirKeys dirs := fun hm => hc (hasDir_iff.mpr hm)
    simp [List.nodup_append, h, this]

theorem dirKeys_modifyDir (dirs : Dirs) (c : String) (g : List String → List String) :
    dirKeys (modifyDir dirs c g) = dirKeys dirs := by
  unfold dirKeys modifyDir
  rw [List.map_map]
  apply List.map_congr_left
  intro p _
  by_cases h : p.1 = c <;> simp [h]

theorem lookup_modifyDir {dirs : Dirs} (hnd : (dirKeys dirs).Nodup)
    (c n : String) (g : List String → List String) :
    (modifyDir dirs c g).lookup n =
      if n = c then (dirs.lookup c).map g else dirs.lookup n := by
  induction dirs with
  | nil => simp [modifyDir]
  | cons p rest ih =>
    obtain ⟨k, fl⟩ := p
    have hk : k ∉ dirKeys rest := (List.nodup_cons.mp hnd).1
    have hrest : (dirKeys rest).Nodup := (List.nodup_cons.mp hnd).2
    have hmod : modifyDir ((k, fl) :: rest) c g =
        (k, if k = c then g fl else fl) :: modifyDir rest c g := by
      simp only [modifyDir, List.map_cons]
      by_cases h : k = c <;> simp [h, modifyDir]
    by_cases hnk : n = k
    · subst hnk
      by_cases hc2 : n = c
      · subst hc2
        rw [hmod]
        simp [List.lookup_cons]
      · rw [hmod]
        simp [List.lookup_cons, hc2]
    · have hbn : (n == k) = false := beq_false_of_ne hnk
      have hl1 : ((k, fl) :: rest).lookup n = rest.lookup n := by
        simp [List.lookup_cons, hbn]
      have hl2 : (modifyDir ((k, fl) :: rest) c g).lookup n = (modifyDir rest c g).lookup n := by
        rw [hmod]
        simp [List.lookup_cons, hbn]
      rw [hl2, ih hrest]
      by_cases hc2 : n = c
      · subst hc2
        rw [if_pos rfl, if_pos rfl]
        have hl3 : ((k, fl) :: rest).lookup n = rest.lookup n := hl1
        rw [hl3]
      · rw [if_neg hc2, if_neg hc2, hl1]

theorem dirFiles_addFile {dirs : Dirs} (hnd : (dirKeys dirs).Nodup)
    (hc : hasDir dirs c = true) (f n : String) :
    dirFiles (addFile dirs c f) n =
      if n = c then dirFiles dirs c ++ [f] else dirFiles dirs n := by
  unfold addFile dirFiles
  rw [lookup_modifyDir hnd]
  by_cases h : n = c
  · subst h
    rw [if_pos rfl, if_pos rfl]
    obtain ⟨v, hv⟩ := Option.isSome_iff_exists.mp hc
    simp [hv]
  · rw [if_neg h, if_neg h]

theorem dirFiles_removeFile {dirs : Dirs} (hnd : (dirKeys dirs).Nodup) (c f n : String) :
    dirFiles (removeFile dirs c f) n =
      if n = c then (dirFiles dirs c).erase f else dirFiles dirs n := by
  unfold removeFile dirFiles
  rw [lookup_modifyDir hnd]
  by_cases h : n = c
  · subst h
    rw [if_pos rfl, if_pos rfl]
    cases hv : dirs.lookup n <;> simp
  · rw [if_neg h, if_neg h]

theorem prune_keep_iff (k : String) (fl : List String) :
    ((!(ALL_CATEGORIES.contains k && fl.isEmpty)) = true) ↔ ¬(k ∈ ALL_CATEGORIES ∧ fl = []) := by
  simp [List.contains, List.elem_iff]
  tauto

theorem lookup_prune {dirs : Dirs} (hnd : (dirKeys dirs).Nodup) (n : String) :
    (pruneEmptyCategoryFolders dirs).lookup n =
      if n ∈ ALL_CATEGORIES ∧ dirs.lookup n = some [] then none else dirs.lookup n := by
  induction dirs with
  | nil => simp [pruneEmptyCategoryFolders]
  | cons p rest ih =>
    obtain ⟨k, fl⟩ := p
    have hk : k ∉ dirKeys rest := (List.nodup_cons.mp hnd).1
    have hrest := (List.nodup_cons.mp hnd).2
    have hpr : pruneEmptyCategoryFolders ((k, fl) :: rest) =
        if (!(ALL_CATEGORIES.contains k && fl.isEmpty)) = true then
          (k, fl) :: pruneEmptyCategoryFolders rest
        else pruneEmptyCategoryFolders rest := by
      simp [pruneEmptyCategoryFolders, List.filter_cons]
    by_cases hnk : n = k
    · subst hnk
      by_cases hkeep : n ∈ ALL_CATEGORIES ∧ fl = []
      · rw [hpr, if_neg (by rw [prune_keep_iff]; exact not_not_intro hkeep)]
        have hlrest : (pruneEmptyCategoryFolders rest).lookup n = none :=
          (List.filter_sublist rest).lookup_eq_none (lookup_eq_none_of_not_mem hk)
        rw [hlrest, List.lookup_cons_self, if_pos ⟨hkeep.1, by rw [hkeep.2]⟩]
      · rw [hpr, if_pos ((prune_keep_iff n fl).mpr hkeep), List.lookup_cons_self,
          List.lookup_cons_self]
        rw [if_neg]
        intro ⟨h1, h2⟩
        exact hkeep ⟨h1, by injection h2⟩
    · have hbn : (n == k) = false := beq_false_of_ne hnk
      have hstep : ((k, fl) :: rest).lookup n = rest.lookup n := by
        simp [List.lookup_cons, hbn]
      rw [hstep, hpr]
      split
      · simp only [List.lookup_cons, hbn, if_false]
        rw [ih hrest]
      · rw [ih hrest]

/-! ## The organize scan loop -/

/-- Eligibility test of the scan loop (Organizer.py line 165): every root file
except the literal self-exclusion name is processed. -/
def eligibleB (f : String) : Bool := f != SELF_NAME

theorem eligibleB_iff {f : String} : eligibleB f = true ↔ f ≠ SELF_NAME := by
  simp [eligibleB]

theorem resolveDest_of_not_mem {existing : List String} {name : String} (h : name ∉ existing) :
    resolveDest existing (pyStem name) (pySuffix name) = name := by
  unfold resolveDest
  rw [stem_append_suffix, if_neg h]

/-- Characterization of a whole-scan run in which no eligible file's move
fails and no upcoming file collides with the contents of its category folder:
the run succeeds; the records are appended in scan order, one per eligible
file, each keeping its name; each folder receives exactly its files; the
eligible files leave the root. -/
theorem orgGo_clean (failAt : String → Bool) :
    ∀ (L root : List String) (dirs : Dirs) (moves : List MoveRecord),
      L.Nodup → (∀ f ∈ L, f ∈ root) → root.Nodup → (dirKeys dirs).Nodup →
      (∀ f ∈ L, f ≠ SELF_NAME → failAt f = false) →
      (∀ f ∈ L, f ≠ SELF_NAME → f ∉ dirFiles dirs (category_of f)) →
      ∃ root' dirs' moves',
        orgGo failAt L root dirs moves = .ok (root', dirs', moves') ∧
        moves' = moves ++ (L.filter eligibleB).map (fun f => ⟨category_of f, f, f⟩) ∧
        (∀ n, dirFiles dirs' n =
          dirFiles dirs n ++ L.filter (fun f => eligibleB f && (category_of f == n))) ∧
        (∀ g, g ∈ root' ↔ (g ∈ root ∧ (g ∈ L → g = SELF_NAME))) ∧
        root'.Nodup ∧ (dirKeys dirs').Nodup := by
  intro L
  induction L with
  | nil =>
    intro root dirs moves _ _ hroot hkeys _ _
    exact ⟨root, dirs, moves, rfl, by simp, by simp [dirFiles], by simp, hroot, hkeys⟩
  | cons f rest ih =>
    intro root dirs moves hnd hsub hroot hkeys hfail hfree
    have hfrest : f ∉ rest := (List.nodup_cons.mp hnd).1
    have hndrest : rest.Nodup := (List.nodup_cons.mp hnd).2
    by_cases hself : f = SELF_NAME
    · obtain ⟨root', dirs', moves', h1, h2, h3, h4, h5, h6⟩ :=
        ih root dirs moves hndrest (fun g hg => hsub g (List.mem_cons_of_mem f hg)) hroot hkeys
          (fun g hg => hfail g (List.mem_cons_of_mem f hg))
          (fun g hg => hfree g (List.mem_cons_of_mem f hg))
      refine ⟨root', dirs', moves', ?_, ?_, ?_, ?_, h5, h6⟩
      · simpa [orgGo, if_pos hself] using h1
      · have he : eligibleB f = false := by
          simp [eligibleB, hself]
        simpa [List.filter_cons, he] using h2
      · intro n
        have he : (eligibleB f && (category_of f == n)) = false := by
          simp [eligibleB, hself]
        simpa [List.filter_cons, he] using h3 n
      · intro g
        rw [h4 g]
        by_cases hg : g = SELF_NAME
        · simp [hg]
        · simp only [List.mem_cons, and_congr_right_iff]
          intro _
          constructor
          · intro hi hor
            rcases hor with h | h
            · exact absurd (h.trans hself) hg
            · exact hi h
          · intro hi hr
            exact hi (Or.inr hr)
    · have hB : eligibleB f = true := eligibleB_iff.mpr hself
      set c := category_of f with hc
      set dirs1 := mkdirIfAbsent dirs c with hdirs1
      have hkeys1 : (dirKeys dirs1).Nodup := nodupKeys_mkdirIfAbsent c hkeys
      have hfiles1 : ∀ n, dirFiles dirs1 n = dirFiles dirs n := fun n =>
        dirFiles_mkdirIfAbsent dirs c n
      have hdres : resolveDest (dirFiles dirs1 c) (pyStem f) (pySuffix f) = f := by
        apply resolveDest_of_not_mem
        rw [hfiles1]
        exact hfree f (List.mem_cons_self f rest) hself
      have hhas1 : hasDir dirs1 c = true := hasDir_mkdirIfAbsent_self dirs c
      set dirs2 := addFile dirs1 c f with hdirs2
      have hkeys2 : (dirKeys dirs2).Nodup := by
        rw [hdirs2, addFile, dirKeys_modifyDir]
        exact hkeys1
      have hfiles2 : ∀ n, dirFiles dirs2 n =
          if n = c then dirFiles dirs c ++ [f] else dirFiles dirs n := by
        intro n
        rw [hdirs2, dirFiles_addFile hkeys1 hhas1 f n, hfiles1, hfiles1]
      have hroot2 : (root.erase f).Nodup := hroot.erase f
      obtain ⟨root', dirs', moves', h1, h2, h3, h4, h5, h6⟩ :=
        ih (root.erase f) dirs2 (moves ++ [⟨c, f, f⟩]) hndrest
          (fun g hg => (hroot.mem_erase_iff.mpr
            ⟨fun he => hfrest (he ▸ hg), hsub g (List.mem_cons_of_mem f hg)⟩))
          hroot2 hkeys2
          (fun g hg => hfail g (List.mem_cons_of_mem f hg))
          (fun g hg hgs => by
            rw [hfiles2]
            split
            · rename_i hgc
              rw [List.mem_append]
              rintro (hm | hm)
              · exact hfree g (List.mem_cons_of_mem f hg) hgs (by rw [hgc]; exact hm)
              · exact hfrest ((List.mem_singleton.mp hm) ▸ hg)
            · exact hfree g (List.mem_cons_of_mem f hg) hgs)
      refine ⟨root', dirs', moves', ?_, ?_, ?_, ?_, h5, h6⟩
      · rw [orgGo, if_neg hself]
        simp only [← hc, ← hdirs1, hdres, hfail f (List.mem_cons_self f rest) hself,
          Bool.false_eq_true, if_false, ← hdirs2]
        exact h1
      · rw [h2, List.filter_cons, if_pos hB]
        simp
      · intro n
        rw [h3 n, hfiles2 n]
        by_cases hnc : n = c
        · subst hnc
          rw [if_pos rfl, List.filter_cons, if_pos (by simp [hB, ← hc])]
          simp
        · rw [if_neg hnc, List.filter_cons,
            if_neg (by simp [hB, ← hc]; exact fun h => hnc h.symm)]
      · intro g
        rw [h4 g]
        by_cases hgf : g = f
        · subst hgf
          rw [hroot.mem_erase_iff]
          simp [hself, hfrest]
        · rw [hroot.mem_erase_iff]
          simp only [List.mem_cons, hgf, ne_eq, not_false_iff, true_and, false_or]

/-- Success of the scan loop, with any failure oracle, appends one record per
eligible file in scan order, with origName the file's root name. -/
theorem orgGo_ok_ledger (failAt : String → Bool) :
    ∀ (L root : List String) (dirs : Dirs) (moves : List MoveRecord)
      (root' : List String) (dirs' : Dirs) (moves' : List MoveRecord),
      orgGo failAt L root dirs moves = .ok (root', dirs', moves') →
        moves'.map (fun r => r.origName) =
          moves.map (fun r => r.origName) ++ L.filter eligibleB := by
  intro L
  induction L with
  | nil =>
    intro root dirs moves root' dirs' moves' h
    injection h with h
    obtain ⟨rfl, h2⟩ := Prod.mk.injEq .. ▸ h
    obtain ⟨rfl, rfl⟩ := Prod.mk.injEq .. ▸ h2
    simp
  | cons f rest ih =>
    intro root dirs moves root' dirs' moves' h
    by_cases hself : f = SELF_NAME
    · rw [orgGo, if_pos hself] at h
      have he : eligibleB f = false := by simp [eligibleB, hself]
      rw [ih _ _ _ _ _ _ h, List.filter_cons, he]
      simp
    · rw [orgGo, if_neg hself] at h
      by_cases hfa : failAt f = true
      · rw [if_pos hfa] at h
        exact absurd h (by simp)
      · rw [if_neg hfa] at h
        have hB : eligibleB f = true := eligibleB_iff.mpr hself
        rw [ih _ _ _ _ _ _ h, List.filter_cons, hB]
        simp

/-- A scan-loop raise leaves the ledger argument untouched and is produced by
the first eligible failing file; that file and everything after it are still
in the root of the raised state. -/
theorem orgGo_error (failAt : String → Bool) :
    ∀ (L root : List String) (dirs : Dirs) (moves : List MoveRecord)
      (root' : List String) (dirs' : Dirs),
      L.Nodup → (∀ f ∈ L, f ∈ root) → root.Nodup →
      orgGo failAt L root dirs moves = .error (root', dirs') →
        ∃ pre x post, L = pre ++ x :: post ∧ x ≠ SELF_NAME ∧ failAt x = true ∧
          (∀ y ∈ pre, ¬(y ≠ SELF_NAME ∧ failAt y = true)) ∧
          x ∈ root' ∧ (∀ y ∈ post, y ∈ root') := by
  intro L
  induction L with
  | nil =>
    intro root dirs moves root' dirs' _ _ _ h
    exact absurd h (by simp [orgGo])
  | cons f rest ih =>
    intro root dirs moves root' dirs' hnd hsub hroot h
    have hfrest : f ∉ rest := (List.nodup_cons.mp hnd).1
    have hndrest : rest.Nodup := (List.nodup_cons.mp hnd).2
    by_cases hself : f = SELF_NAME
    · rw [orgGo, if_pos hself] at h
      obtain ⟨pre, x, post, hL, hx1, hx2, hpre, hx3, hpost⟩ :=
        ih root dirs moves root' dirs' hndrest
          (fun g hg => hsub g (List.mem_cons_of_mem f hg)) hroot h
      exact ⟨f :: pre, x, post, by rw [hL]; rfl, hx1, hx2,
        fun y hy => by
          rcases List.mem_cons.mp hy with rfl | hy2
          · exact fun hc => hc.1 hself
          · exact hpre y hy2,
        hx3, hpost⟩
    · rw [orgGo, if_neg hself] at h
      by_cases hfa : failAt f = true
      · rw [if_pos hfa] at h
        injection h with h
        obtain ⟨rfl, rfl⟩ := Prod.mk.injEq .. ▸ h
        exact ⟨[], f, rest, rfl, hself, hfa, by simp,
          hsub f (List.mem_cons_self f rest),
          fun y hy => hsub y (List.mem_cons_of_mem f hy)⟩
      · rw [if_neg hfa] at h
        obtain ⟨pre, x, post, hL, hx1, hx2, hpre, hx3, hpost⟩ :=
          ih (root.erase f) _ _ root' dirs' hndrest
            (fun g hg => hroot.mem_erase_iff.mpr
              ⟨fun he => hfrest (he ▸ hg), hsub g (List.mem_cons_of_mem f hg)⟩)
            (hroot.erase f) h
        exact ⟨f :: pre, x, post, by rw [hL]; rfl, hx1, hx2,
          fun y hy => by
            rcases List.mem_cons.mp hy with rfl | hy2
            · exact fun hc => hfa hc.2
            · exact hpre y hy2,
          hx3, hpost⟩

/-! ## The undo restore loop -/

/-- Destination names a record list still has pending for one folder, in
ledger order. -/
def pendingNames (R : List MoveRecord) (n : String) : List String :=
  (R.filter (fun r => r.destFolder == n)).map (fun r => r.destName)

/-- Decidable form of the destination-still-exists test of Organizer.py
line 237. -/
def destPresent (dirs : Dirs) (r : MoveRecord) : Bool :=
  decide (r.destName ∈ dirFiles dirs r.destFolder)

theorem destPresent_iff {dirs : Dirs} {r : MoveRecord} :
    destPresent dirs r = true ↔ r.destName ∈ dirFiles dirs r.destFolder := by
  simp [destPresent]

/-- Exact-inverse run of the restore loop: when every pending destination sits
at the front of its folder in ledger order (which is how a fresh organize run
left them) and no original name is back in the root, every record restores:
the origin names return to the root in ledger order, every folder drops back
to its residue, and the count is the full ledger length. -/
theorem undoGo_clean (extra : String → List String) :
    ∀ (R : List MoveRecord) (root : List String) (dirs : Dirs) (cnt : Nat),
      (dirKeys dirs).Nodup →
      (∀ n, dirFiles dirs n = pendingNames R n ++ extra n) →
      (∀ r ∈ R, r.origName ∉ root) →
      (R.map (fun r => r.origName)).Nodup →
      ∃ dirs',
        undoGo R root dirs cnt =
          (root ++ R.map (fun r => r.origName), dirs', cnt + R.length) ∧
        dirKeys dirs' = dirKeys dirs ∧
        (∀ n, dirFiles dirs' n = extra n) := by
  intro R
  induction R with
  | nil =>
    intro root dirs cnt hkeys hdirs _ _
    refine ⟨dirs, ?_, rfl, ?_⟩
    · simp [undoGo]
    · intro n
      simpa [pendingNames] using hdirs n
  | cons r rest ih =>
    intro root dirs cnt hkeys hdirs horig hnd
    have hpend : dirFiles dirs r.destFolder =
        r.destName :: (pendingNames rest r.destFolder ++ extra r.destFolder) := by
      rw [hdirs r.destFolder]
      simp [pendingNames, List.filter_cons]
    have hpres : r.destName ∈ dirFiles dirs r.destFolder := by
      rw [hpend]; exact List.mem_cons_self _ _
    have hor : r.origName ∉ root := horig r (List.mem_cons_self r rest)
    have hkeys2 : (dirKeys (removeFile dirs r.destFolder r.destName)).Nodup := by
      rw [removeFile, dirKeys_modifyDir]; exact hkeys
    have hdirs2 : ∀ n, dirFiles (removeFile dirs r.destFolder r.destName) n =
        pendingNames rest n ++ extra n := by
      intro n
      rw [dirFiles_removeFile hkeys r.destFolder r.destName n]
      by_cases hn : n = r.destFolder
      · subst hn
        rw [if_pos rfl, hpend, List.erase_cons_head]
      · rw [if_neg hn, hdirs n]
        congr 1
        simp only [pendingNames, List.filter_cons]
        rw [if_neg (by simp; exact fun h => hn h.symm)]
    have horig2 : ∀ s ∈ rest, s.origName ∉ root ++ [r.origName] := by
      intro s hs
      rw [List.mem_append]
      rintro (hm | hm)
      · exact horig s (List.mem_cons_of_mem r hs) hm
      · have : r.origName ∉ rest.map (fun t => t.origName) := (List.nodup_cons.mp hnd).1
        exact this ((List.mem_singleton.mp hm) ▸ List.mem_map_of_mem _ hs)
    have hnd2 : (rest.map (fun t => t.origName)).Nodup := (List.nodup_cons.mp hnd).2
    obtain ⟨dirs', h1, h2, h3⟩ :=
      ih (root ++ [r.origName]) (removeFile dirs r.destFolder r.destName) (cnt + 1)
        hkeys2 hdirs2 horig2 hnd2
    refine ⟨dirs', ?_, by rw [h2, removeFile, dirKeys_modifyDir], h3⟩
    have hstep : undoGo (r :: rest) root dirs cnt =
        undoGo rest (root ++ [r.origName]) (removeFile dirs r.destFolder r.destName) (cnt + 1) := by
      simp only [undoGo]
      rw [if_pos hpres, if_neg hor]
    rw [hstep, h1]
    simp only [List.map_cons, List.length_cons, Prod.mk.injEq]
    refine ⟨by simp, by trivial, by omega⟩

/-- Restore-loop run on an arbitrary ledger whose destination pairs are
distinct: the count is the number of records whose destination existed at
entry (skipped records contribute nothing and raise nothing), root membership
only grows, and every record whose destination existed has its original name
back in the root. -/
theorem undoGo_stable :
    ∀ (R : List MoveRecord) (root : List String) (dirs : Dirs) (cnt : Nat),
      (dirKeys dirs).Nodup →
      (R.map (fun r => (r.destFolder, r.destName))).Nodup →
      ∃ root' dirs',
        undoGo R root dirs cnt =
          (root', dirs', cnt + (R.filter (destPresent dirs)).length) ∧
        (∀ g, g ∈ root → g ∈ root') ∧
        (∀ r ∈ R, r.destName ∈ dirFiles dirs r.destFolder → r.origName ∈ root') := by
  intro R
  induction R with
  | nil =>
    intro root dirs cnt _ _
    exact ⟨root, dirs, by simp [undoGo], fun g hg => hg, by simp⟩
  | cons r rest ih =>
    intro root dirs cnt hkeys hnd
    have hpair : (r.destFolder, r.destName) ∉
        rest.map (fun t => (t.destFolder, t.destName)) := (List.nodup_cons.mp hnd).1
    have hndrest := (List.nodup_cons.mp hnd).2
    by_cases hpres : r.destName ∈ dirFiles dirs r.destFolder
    · have hkeys2 : (dirKeys (removeFile dirs r.destFolder r.destName)).Nodup := by
        rw [removeFile, dirKeys_modifyDir]; exact hkeys
      have hsame : ∀ s ∈ rest,
          destPresent (removeFile dirs r.destFolder r.destName) s = destPresent dirs s := by
        intro s hs
        have hne : (s.destFolder, s.destName) ≠ (r.destFolder, r.destName) := by
          intro he
          exact hpair (he ▸ List.mem_map_of_mem _ hs)
        unfold destPresent
        rw [decide_eq_decide, dirFiles_removeFile hkeys r.destFolder r.destName s.destFolder]
        by_cases hf : s.destFolder = r.destFolder
        · rw [if_pos hf, hf]
          have hdn : s.destName ≠ r.destName := by
            intro he
            exact hne (by rw [hf, he])
          exact List.mem_erase_of_ne hdn
        · rw [if_neg hf]
      obtain ⟨root', dirs', h1, h2, h3⟩ :=
        ih (if r.origName ∈ root then root else root ++ [r.origName])
          (removeFile dirs r.destFolder r.destName) (cnt + 1) hkeys2 hndrest
      have hcount : (rest.filter (destPresent (removeFile dirs r.destFolder r.destName))).length
          = (rest.filter (destPresent dirs)).length := by
        rw [List.filter_congr hsame]
      refine ⟨root', dirs', ?_, ?_, ?_⟩
      · have hstep : undoGo (r :: rest) root dirs cnt =
            undoGo rest (if r.origName ∈ root then root else root ++ [r.origName])
              (removeFile dirs r.destFolder r.destName) (cnt + 1) := by
          simp only [undoGo]
          rw [if_pos hpres]
        rw [hstep, h1, hcount, List.filter_cons, if_pos (destPresent_iff.mpr hpres)]
        simp only [List.length_cons, Prod.mk.injEq]
        refine ⟨by trivial, by trivial, by omega⟩
      · intro g hg
        apply h2
        split
        · exact hg
        · exact List.mem_append_left _ hg
      · intro s hs hsp
        rcases List.mem_cons.mp hs with rfl | hs2
        · apply h2
          split
          · rename_i hin
            exact hin
          · exact List.mem_append_right _ (List.mem_singleton.mpr rfl)
        · apply h3 s hs2
          have := hsame s hs2
          rw [← destPresent_iff, this, destPresent_iff]
          exact hsp
    · obtain ⟨root', dirs', h1, h2, h3⟩ := ih root dirs cnt hkeys hndrest
      refine ⟨root', dirs', ?_, h2, ?_⟩
      · rw [undoGo, if_neg hpres, h1, List.filter_cons,
          if_neg (by rw [destPresent_iff]; exact hpres)]
      · intro s hs hsp
        rcases List.mem_cons.mp hs with rfl | hs2
        · exact absurd hsp hpres
        · exact h3 s hs2 hsp

/-- Pruning removes a category folder that is present-and-empty (or already
absent). -/
theorem hasDir_prune_of_empty {dirs : Dirs} (hnd : (dirKeys dirs).Nodup)
    {c : String} (hc : c ∈ ALL_CATEGORIES) (he : dirFiles dirs c = []) :
    hasDir (pruneEmptyCategoryFolders dirs) c = false := by
  unfold hasDir
  rw [lookup_prune hnd]
  cases hl : dirs.lookup c with
  | none =>
    rw [if_neg (by simp)]
    simp
  | some l =>
    have hle : l = [] := by simpa [dirFiles, hl] using he
    subst hle
    rw [if_pos ⟨hc, rfl⟩]
    rfl

/-! ## Classifier totality and undo key preservation -/

theorem get_category_total (ext : String) : get_category ext ∈ ALL_CATEGORIES := by
  unfold get_category
  cases h : mapping.lookup (lowerStr ext) with
  | none => simp [ALL_CATEGORIES]
  | some v =>
    obtain ⟨l₁, l₂, hdec, _⟩ := List.lookup_eq_some_iff.mp h
    have hv : v ∈ mapping.map Prod.snd := by
      rw [hdec]
      simp
    have hall : ∀ x ∈ mapping.map Prod.snd, x ∈ ALL_CATEGORIES := by decide
    simpa using hall v hv

theorem undoGo_keys :
    ∀ (R : List MoveRecord) (root : List String) (dirs : Dirs) (cnt : Nat),
      dirKeys (undoGo R root dirs cnt).2.1 = dirKeys dirs := by
  intro R
  induction R with
  | nil => intro root dirs cnt; rfl
  | cons r rest ih =>
    intro root dirs cnt
    simp only [undoGo]
    by_cases h : r.destName ∈ dirFiles dirs r.destFolder
    · rw [if_pos h, ih, removeFile, dirKeys_modifyDir]
    · rw [if_neg h, ih]

/-! ## Claims -/

/-- C3: collision resolution never overwrites: the resolved destination name
is never one of the existing names; when the plain name is free it is kept
unchanged; when it collides, the result is stem_N suffix for the first
positive N whose numbered name is free (all smaller positive N collide); and
the original extension is preserved.  Determinism is immediate: resolveDest
is a pure function of its arguments. -/
theorem resolveDest_correct (existing : List String) (stem suffix : String) :
    resolveDest existing stem suffix ∉ existing ∧
    (stem ++ suffix ∉ existing → resolveDest existing stem suffix = stem ++ suffix) ∧
    (stem ++ suffix ∈ existing →
      ∃ N, 1 ≤ N ∧ resolveDest existing stem suffix = numbered stem suffix N ∧
        (∀ j, 1 ≤ j → j < N → numbered stem suffix j ∈ existing)) ∧
    (∃ p, resolveDest existing stem suffix = p ++ suffix) := by
  unfold resolveDest
  by_cases hb : stem ++ suffix ∈ existing
  · rw [if_pos hb]
    obtain ⟨k, hk, hfree⟩ := exists_free_numbered existing stem suffix 1
    obtain ⟨m, hm1, hm2, hm3⟩ :=
      searchFrom_spec existing stem suffix (existing.length + 1) 1 ⟨k, by omega, hfree⟩
    refine ⟨by rw [hm1]; exact hm2, fun h => absurd hb h, fun _ => ⟨1 + m, by omega, hm1, ?_⟩,
      ⟨stem ++ "_" ++ Nat.repr (1 + m), by rw [hm1]; rfl⟩⟩
    intro j h1 hj
    have he : 1 + (j - 1) = j := by omega
    rw [← he]
    exact hm3 (j - 1) (by omega)
  · rw [if_neg hb]
    exact ⟨hb, fun _ => rfl, fun h => absurd h hb, ⟨stem, rfl⟩⟩

/-- Witness for C3 at concrete inputs, including the spec's scenario: a second
a.txt sorted after a first one lands as Documents/a_1.txt beside it. -/
theorem resolveDest_correct_witness :
    resolveDest ["a.txt"] "a" ".txt" ∉ ["a.txt"] ∧
    (∃ N, 1 ≤ N ∧ resolveDest ["a.txt"] "a" ".txt" = numbered "a" ".txt" N ∧
      (∀ j, 1 ≤ j → j < N → numbered "a" ".txt" j ∈ ["a.txt"])) ∧
    resolveDest ["a.txt"] "a" ".txt" = "a_1.txt" ∧
    organize (fun _ => false) ⟨["a.txt"], [("Documents", ["a.txt"])], none⟩ =
      .ok (⟨[], [("Documents", ["a.txt", "a_1.txt"])],
        some [⟨"Documents", "a_1.txt", "a.txt"⟩]⟩, 1) :=
  ⟨(resolveDest_correct ["a.txt"] "a" ".txt").1,
   (resolveDest_correct ["a.txt"] "a" ".txt").2.2.1 (by decide),
   by decide, by rfl⟩

/-- C6: undo with no persisted ledger reports the no-prior-sort outcome and
returns the filesystem completely unchanged. -/
theorem undo_no_ledger (fs : FS) (h : fs.ledger = none) :
    undo fs = (fs, .noPriorSort) := by
  unfold undo
  rw [h]

/-- Witness for C6 on a concrete directory. -/
theorem undo_no_ledger_witness :
    undo ⟨["a.txt"], [("Stuff", ["x.bin"])], none⟩ =
      (⟨["a.txt"], [("Stuff", ["x.bin"])], none⟩, .noPriorSort) :=
  undo_no_ledger ⟨["a.txt"], [("Stuff", ["x.bin"])], none⟩ rfl

/-- C7 counterexample: the classifier requires the leading dot.  The dotless
form of a supported extension does not map to its category: classify("png")
is Others while classify(".png") is Images, refuting the claim that the
dotless form yields the same category. -/
theorem classifier_dotless_cex :
    get_category ".png" = "Images" ∧ get_category "png" = "Others" ∧
    get_category "PNG" = "Others" ∧ ("Others" : String) ≠ "Images" := by
  exact ⟨by decide, by decide, by decide, by decide⟩

/-- C7 (amended): the classifier is case-insensitive on dotted extensions:
for every table entry, the extension and its uppercase form map to the
entry's category; and every input, dotless and unknown ones included, yields
exactly one of the seven category labels (unmatched inputs fall to Others). -/
theorem classifier_case_insensitive :
    (∀ p ∈ mapping, get_category p.1 = p.2 ∧ get_category (upperStr p.1) = p.2) ∧
    (∀ ext, get_category ext ∈ ALL_CATEGORIES) :=
  ⟨by decide, get_category_total⟩

/-- Witness for C7 (amended) at concrete inputs. -/
theorem classifier_case_insensitive_witness :
    get_category ".mp3" = "Music" ∧ get_category (upperStr ".mp3") = "Music" ∧
    get_category ".xyz" ∈ ALL_CATEGORIES :=
  ⟨(classifier_case_insensitive.1 (".mp3", "Music") (by decide)).1,
   (classifier_case_insensitive.1 (".mp3", "Music") (by decide)).2,
   classifier_case_insensitive.2 ".xyz"⟩

/-- C9: the self-exclusion of the scan compares each entry against the
literal lowercase name organizer.py, but the program file of this repository
is named Organizer.py; a run over a directory holding the program file under
its real name moves it into Others and records the move, contradicting the
stated invariant that the engine never moves its own file. -/
theorem organize_moves_program_file :
    organize (fun _ => false) ⟨["Organizer.py"], [], none⟩ =
      .ok (⟨[], [("Others", ["Organizer.py"])],
        some [⟨"Others", "Organizer.py", "Organizer.py"⟩]⟩, 1) ∧
    SELF_NAME = "organizer.py" ∧ ("Organizer.py" : String) ≠ SELF_NAME :=
  ⟨by rfl, rfl, by decide⟩

/-- C10: a ledger line dest|orig parsed by one split at the first bar
recovers the recorded pair exactly when the destination path holds no bar;
the original path may hold bars freely since only the first bar splits. -/
theorem ledger_line_roundtrip (dest orig : List Char) :
    splitOnce '|' (serializeLine dest orig) = some (dest, orig) ↔ '|' ∉ dest :=
  ⟨fun h => splitOnce_no_sep h, fun h => splitOnce_of_no_sep orig h⟩

/-- Witness for C10: an original path containing the bar still round-trips. -/
theorem ledger_line_roundtrip_witness :
    splitOnce '|' (serializeLine "/d/a.txt".data "/d/b|c".data) =
      some ("/d/a.txt".data, "/d/b|c".data) :=
  (ledger_line_roundtrip "/d/a.txt".data "/d/b|c".data).mpr (by decide)

/-- C2 counterexample: move failures are not contained.  When the move of
a.txt raises, organize propagates the raise: the remaining entry b.txt is
left unprocessed in the root, no per-file failure is recorded anywhere, and
no ledger is written — though the same directory sorts both files when no
move fails. -/
theorem move_failure_cex :
    organize (fun f => f == "a.txt") ⟨["a.txt", "b.txt"], [], none⟩ =
      .error ⟨["a.txt", "b.txt"], [("Documents", [])], none⟩ ∧
    organize (fun _ => false) ⟨["a.txt", "b.txt"], [], none⟩ =
      .ok (⟨[], [("Documents", ["a.txt", "b.txt"])],
        some [⟨"Documents", "a.txt", "a.txt"⟩, ⟨"Documents", "b.txt", "b.txt"⟩]⟩, 2) :=
  ⟨by rfl, by rfl⟩

/-- C2 (amended): a failing move aborts the whole run at the first eligible
failing file: organize raises, the failing file and every later directory
entry stay in the root unprocessed, and the persisted ledger is left exactly
as it was (no per-file failure value exists). -/
theorem move_failure_aborts (fs : FS) (failAt : String → Bool) (s : FS)
    (hnd : fs.rootFiles.Nodup)
    (h : organize failAt fs = .error s) :
    s.ledger = fs.ledger ∧
    ∃ pre x post, fs.rootFiles = pre ++ x :: post ∧ x ≠ SELF_NAME ∧ failAt x = true ∧
      (∀ y ∈ pre, ¬(y ≠ SELF_NAME ∧ failAt y = true)) ∧
      x ∈ s.rootFiles ∧ (∀ y ∈ post, y ∈ s.rootFiles) := by
  unfold organize at h
  cases horg : orgGo failAt fs.rootFiles fs.rootFiles fs.dirs [] with
  | ok v =>
    rw [horg] at h
    obtain ⟨root, dirs, moves⟩ := v
    exact absurd h (by simp)
  | error e =>
    rw [horg] at h
    obtain ⟨root, dirs⟩ := e
    injection h with h2
    obtain ⟨pre, x, post, hL, hx1, hx2, hpre, hx3, hpost⟩ :=
      orgGo_error failAt fs.rootFiles fs.rootFiles fs.dirs [] root dirs hnd
        (fun f hf => hf) hnd horg
    rw [← h2]
    exact ⟨rfl, pre, x, post, hL, hx1, hx2, hpre, hx3, hpost⟩

/-- Witness for C2 (amended) at the concrete failing run. -/
theorem move_failure_aborts_witness :
    (⟨["a.txt", "b.txt"], [("Documents", [])], none⟩ : FS).ledger =
      (⟨["a.txt", "b.txt"], [], none⟩ : FS).ledger ∧
    ∃ pre x post,
      (⟨["a.txt", "b.txt"], [], none⟩ : FS).rootFiles = pre ++ x :: post ∧
      x ≠ SELF_NAME ∧ (fun f => f == "a.txt") x = true ∧
      (∀ y ∈ pre, ¬(y ≠ SELF_NAME ∧ (fun f => f == "a.txt") y = true)) ∧
      x ∈ (⟨["a.txt", "b.txt"], [("Documents", [])], none⟩ : FS).rootFiles ∧
      (∀ y ∈ post, y ∈ (⟨["a.txt", "b.txt"], [("Documents", [])], none⟩ : FS).rootFiles) :=
  move_failure_aborts ⟨["a.txt", "b.txt"], [], none⟩ (fun f => f == "a.txt")
    ⟨["a.txt", "b.txt"], [("Documents", [])], none⟩ (by decide) (by rfl)

/-- C4 counterexample: a run aborted by a failing move writes no ledger at
all, so the file a.txt, which was moved successfully before b.txt's move
raised, has no record: the persisted ledger (still none) does not hold one
record per successfully moved file. -/
theorem ledger_cex :
    organize (fun f => f == "b.txt") ⟨["a.txt", "b.txt"], [], none⟩ =
      .error ⟨["b.txt"], [("Documents", ["a.txt"])], none⟩ ∧
    (⟨["b.txt"], [("Documents", ["a.txt"])], none⟩ : FS).ledger = none ∧
    "a.txt" ∈ dirFiles [("Documents", ["a.txt"])] "Documents" :=
  ⟨by rfl, rfl, by decide⟩

/-- C4 (amended): a run of organize that completes persists a ledger holding
exactly one record per moved file, in scan order, with origName the file's
root name, and its record count equals the reported total; a run aborted by a
move failure leaves the previously persisted ledger untouched, so its own
successful moves have no records. -/
theorem ledger_after_organize (fs : FS) (failAt : String → Bool) :
    (∀ s total, organize failAt fs = .ok (s, total) →
      ∃ ms, s.ledger = some ms ∧ ms.length = total ∧
        ms.map (fun r => r.origName) = fs.rootFiles.filter eligibleB) ∧
    (∀ s, organize failAt fs = .error s → s.ledger = fs.ledger) := by
  constructor
  · intro s total h
    unfold organize at h
    cases horg : orgGo failAt fs.rootFiles fs.rootFiles fs.dirs [] with
    | error e =>
      rw [horg] at h
      obtain ⟨a, b⟩ := e
      exact absurd h (by simp)
    | ok v =>
      rw [horg] at h
      obtain ⟨root, dirs, moves⟩ := v
      injection h with h2
      have hmap := orgGo_ok_ledger failAt fs.rootFiles fs.rootFiles fs.dirs [] root dirs
        moves horg
      obtain ⟨hs, ht⟩ := Prod.mk.injEq .. ▸ h2
      subst hs
      subst ht
      exact ⟨moves, rfl, rfl, by simpa using hmap⟩
  · intro s h
    unfold organize at h
    cases horg : orgGo failAt fs.rootFiles fs.rootFiles fs.dirs [] with
    | ok v =>
      rw [horg] at h
      obtain ⟨a, b, c⟩ := v
      exact absurd h (by simp)
    | error e =>
      rw [horg] at h
      obtain ⟨a, b⟩ := e
      injection h with h2
      rw [← h2]

/-- Witness for C4 (amended) on a concrete completed run. -/
theorem ledger_after_organize_witness :
    ∃ ms, (⟨[], [("Documents", ["a.txt"]), ("Images", ["x.png"])],
        some [⟨"Documents", "a.txt", "a.txt"⟩, ⟨"Images", "x.png", "x.png"⟩]⟩ : FS).ledger =
      some ms ∧ ms.length = 2 ∧
      ms.map (fun r => r.origName) =
        (⟨["a.txt", "x.png"], [], none⟩ : FS).rootFiles.filter eligibleB :=
  (ledger_after_organize ⟨["a.txt", "x.png"], [], none⟩ (fun _ => false)).1
    ⟨[], [("Documents", ["a.txt"]), ("Images", ["x.png"])],
      some [⟨"Documents", "a.txt", "a.txt"⟩, ⟨"Images", "x.png", "x.png"⟩]⟩ 2 (by rfl)

/-- C5: on a ledger whose destination pairs are distinct (as every ledger
organize writes is), undo completes normally with a restored-count equal to
the number of records whose destination existed, and every such record's file
is back at its recorded original root name; records with missing destinations
are skipped and contribute nothing. -/
theorem undo_restores_existing (fs : FS) (recs : List MoveRecord)
    (hled : fs.ledger = some recs)
    (hkeys : (dirKeys fs.dirs).Nodup)
    (hnd : (recs.map (fun r => (r.destFolder, r.destName))).Nodup) :
    ∃ fs2, undo fs = (fs2, .done ((recs.filter (destPresent fs.dirs)).length)) ∧
      (∀ r ∈ recs, r.destName ∈ dirFiles fs.dirs r.destFolder →
        r.origName ∈ fs2.rootFiles) := by
  obtain ⟨root', dirs', h1, h2, h3⟩ := undoGo_stable recs fs.rootFiles fs.dirs 0 hkeys hnd
  rw [Nat.zero_add] at h1
  refine ⟨⟨root', pruneEmptyCategoryFolders dirs', none⟩, ?_, fun r hr hp => h3 r hr hp⟩
  simp only [undo, hled, h1]

/-- Witness for C5: one restorable record and one whose destination vanished. -/
theorem undo_restores_existing_witness :
    ∃ fs2, undo ⟨[], [("Documents", ["a.txt"])],
        some [⟨"Documents", "a.txt", "a.txt"⟩, ⟨"Music", "gone.mp3", "song.mp3"⟩]⟩ =
      (fs2, .done ((([⟨"Documents", "a.txt", "a.txt"⟩, ⟨"Music", "gone.mp3", "song.mp3"⟩] :
          List MoveRecord).filter (destPresent [("Documents", ["a.txt"])])).length)) ∧
      (∀ r ∈ ([⟨"Documents", "a.txt", "a.txt"⟩, ⟨"Music", "gone.mp3", "song.mp3"⟩] :
          List MoveRecord), r.destName ∈ dirFiles [("Documents", ["a.txt"])] r.destFolder →
        r.origName ∈ fs2.rootFiles) :=
  undo_restores_existing
    ⟨[], [("Documents", ["a.txt"])],
      some [⟨"Documents", "a.txt", "a.txt"⟩, ⟨"Music", "gone.mp3", "song.mp3"⟩]⟩
    [⟨"Documents", "a.txt", "a.txt"⟩, ⟨"Music", "gone.mp3", "song.mp3"⟩]
    rfl (by decide) (by decide)

/-- C8: after the restore loop, undo removes exactly the category folders
that exist and are empty; a non-empty category folder keeps its entry and its
contents unchanged. -/
theorem undo_prunes_empty_category_folders (fs : FS) (recs : List MoveRecord)
    (root1 : List String) (dirs1 : Dirs) (cnt1 : Nat)
    (hled : fs.ledger = some recs) (hkeys : (dirKeys fs.dirs).Nodup)
    (hmid : undoGo recs fs.rootFiles fs.dirs 0 = (root1, dirs1, cnt1)) :
    ∀ c ∈ ALL_CATEGORIES,
      (dirFiles dirs1 c = [] → hasDir (undo fs).1.dirs c = false) ∧
      (dirFiles dirs1 c ≠ [] → (undo fs).1.dirs.lookup c = dirs1.lookup c) := by
  have hk0 := undoGo_keys recs fs.rootFiles fs.dirs 0
  rw [hmid] at hk0
  have hk1 : (dirKeys dirs1).Nodup := by
    rw [show dirKeys dirs1 = dirKeys fs.dirs from hk0]
    exact hkeys
  have hundo : (undo fs).1.dirs = pruneEmptyCategoryFolders dirs1 := by
    simp only [undo, hled, hmid]
  intro c hc
  constructor
  · intro he
    rw [hundo]
    exact hasDir_prune_of_empty hk1 hc he
  · intro hne
    rw [hundo, lookup_prune hk1]
    rw [if_neg ?_]
    rintro ⟨_, hsome⟩
    exact hne (by simp [dirFiles, hsome])

/-- Witness for C8: the emptied Documents folder is pruned, the still-occupied
Music folder keeps its entry and contents. -/
theorem undo_prunes_empty_category_folders_witness :
    hasDir (undo ⟨[], [("Documents", ["a.txt"]), ("Music", ["keep.mp3"])],
      some [⟨"Documents", "a.txt", "a.txt"⟩]⟩).1.dirs "Documents" = false ∧
    (undo ⟨[], [("Documents", ["a.txt"]), ("Music", ["keep.mp3"])],
      some [⟨"Documents", "a.txt", "a.txt"⟩]⟩).1.dirs.lookup "Music" =
      ([("Documents", []), ("Music", ["keep.mp3"])] : Dirs).lookup "Music" :=
  ⟨(undo_prunes_empty_category_folders
      ⟨[], [("Documents", ["a.txt"]), ("Music", ["keep.mp3"])],
        some [⟨"Documents", "a.txt", "a.txt"⟩]⟩
      [⟨"Documents", "a.txt", "a.txt"⟩] ["a.txt"]
      [("Documents", []), ("Music", ["keep.mp3"])] 1 rfl (by decide) (by rfl)
      "Documents" (by decide)).1 (by decide),
   (undo_prunes_empty_category_folders
      ⟨[], [("Documents", ["a.txt"]), ("Music", ["keep.mp3"])],
        some [⟨"Documents", "a.txt", "a.txt"⟩]⟩
      [⟨"Documents", "a.txt", "a.txt"⟩] ["a.txt"]
      [("Documents", []), ("Music", ["keep.mp3"])] 1 rfl (by decide) (by rfl)
      "Music" (by decide)).2 (by decide)⟩

/-- C1 counterexample: the round-trip is not clean for every directory.  With
a non-empty Documents folder already present, organize then undo restores
a.txt to the root but the Documents category folder (still holding its
pre-existing x.txt) is left behind. -/
theorem roundtrip_cex :
    organize (fun _ => false) ⟨["a.txt"], [("Documents", ["x.txt"])], none⟩ =
      .ok (⟨[], [("Documents", ["x.txt", "a.txt"])],
        some [⟨"Documents", "a.txt", "a.txt"⟩]⟩, 1) ∧
    undo ⟨[], [("Documents", ["x.txt", "a.txt"])], some [⟨"Documents", "a.txt", "a.txt"⟩]⟩ =
      (⟨["a.txt"], [("Documents", ["x.txt"])], none⟩, .done 1) ∧
    ("Documents" ∈ ALL_CATEGORIES ∧
      hasDir [("Documents", ["x.txt"])] "Documents" = true) :=
  ⟨by rfl, by rfl, by decide⟩

/-- C1 (amended): for a directory in which no category folder pre-exists with
contents (and whose entries are distinct, as directory entries are), running
organize with no move failure and then undo restores every root file to its
original root path, leaves no category folder behind, and consumes the
ledger. -/
theorem organize_undo_roundtrip (fs : FS)
    (hroot : fs.rootFiles.Nodup) (hkeys : (dirKeys fs.dirs).Nodup)
    (hcats : ∀ c ∈ ALL_CATEGORIES, dirFiles fs.dirs c = []) :
    ∃ fs1 total fs2 cnt,
      organize (fun _ => false) fs = .ok (fs1, total) ∧
      undo fs1 = (fs2, .done cnt) ∧
      (∀ f ∈ fs.rootFiles, f ∈ fs2.rootFiles) ∧
      (∀ c ∈ ALL_CATEGORIES, hasDir fs2.dirs c = false) ∧
      fs2.ledger = none := by
  obtain ⟨root', dirs', moves', h1, h2, h3, h4, h5, h6⟩ :=
    orgGo_clean (fun _ => false) fs.rootFiles fs.rootFiles fs.dirs []
      hroot (fun f hf => hf) hroot hkeys (fun f _ _ => rfl)
      (fun f _ _ => by
        rw [hcats (category_of f) (get_category_total (pySuffix f))]
        exact List.not_mem_nil f)
  have horg : organize (fun _ => false) fs = .ok (⟨root', dirs', some moves'⟩, moves'.length) := by
    unfold organize
    rw [h1]
  have hm : moves' = (fs.rootFiles.filter eligibleB).map
      (fun f => ⟨category_of f, f, f⟩) := by simpa using h2
  have hmapOrig : moves'.map (fun r => r.origName) = fs.rootFiles.filter eligibleB := by
    rw [hm, List.map_map]
    simp [Function.comp_def]
  have hpend : ∀ n, pendingNames moves' n =
      (fs.rootFiles.filter eligibleB).filter (fun f => category_of f == n) := by
    intro n
    rw [pendingNames, hm, List.filter_map, List.map_map]
    simp [Function.comp_def]
  have hdirsP : ∀ n, dirFiles dirs' n = pendingNames moves' n ++
      (if n ∈ ALL_CATEGORIES then [] else dirFiles fs.dirs n) := by
    intro n
    rw [h3 n, hpend n, List.filter_filter]
    by_cases hn : n ∈ ALL_CATEGORIES
    · rw [if_pos hn, hcats n hn, List.append_nil, List.nil_append]
      apply List.filter_congr
      intro a _
      exact Bool.and_comm _ _
    · rw [if_neg hn]
      have hcat : ∀ a : String, (category_of a == n) = false := by
        intro a
        have := get_category_total (pySuffix a)
        apply beq_false_of_ne
        intro he
        exact hn (he ▸ this)
      have hf1 : fs.rootFiles.filter (fun f => eligibleB f && (category_of f == n)) = [] := by
        rw [List.filter_eq_nil_iff]
        intro a _
        simp [hcat a]
      have hf2 : fs.rootFiles.filter (fun a => (category_of a == n) && eligibleB a) = [] := by
        rw [List.filter_eq_nil_iff]
        intro a _
        simp [hcat a]
      rw [hf1, hf2]
      simp
  have horig : ∀ r ∈ moves', r.origName ∉ root' := by
    intro r hr
    rw [hm] at hr
    obtain ⟨f, hf, rfl⟩ := List.mem_map.mp hr
    intro hmem
    have hfe := List.mem_filter.mp hf
    have := (h4 _).mp hmem
    exact eligibleB_iff.mp hfe.2 (this.2 hfe.1)
  have hndorig : (moves'.map (fun r => r.origName)).Nodup := by
    rw [hmapOrig]
    exact hroot.filter _
  obtain ⟨dirs'', hu1, hu2, hu3⟩ :=
    undoGo_clean (fun n => if n ∈ ALL_CATEGORIES then [] else dirFiles fs.dirs n)
      moves' root' dirs' 0 h6 hdirsP horig hndorig
  have hundo : undo ⟨root', dirs', some moves'⟩ =
      (⟨root' ++ moves'.map (fun r => r.origName), pruneEmptyCategoryFolders dirs'', none⟩,
        .done (0 + moves'.length)) := by
    simp only [undo, hu1]
  refine ⟨⟨root', dirs', some moves'⟩, moves'.length,
    ⟨root' ++ moves'.map (fun r => r.origName), pruneEmptyCategoryFolders dirs'', none⟩,
    0 + moves'.length, horg, hundo, ?_, ?_, rfl⟩
  · intro f hf
    by_cases he : eligibleB f = true
    · apply List.mem_append_right
      rw [hmapOrig]
      exact List.mem_filter.mpr ⟨hf, he⟩
    · have hfs : f = SELF_NAME := by
        by_contra hne
        exact he (eligibleB_iff.mpr hne)
      apply List.mem_append_left
      rw [h4 f]
      exact ⟨hf, fun _ => hfs⟩
  · intro c hc
    apply hasDir_prune_of_empty
    · rw [hu2]
      exact h6
    · exact hc
    · rw [hu3 c, if_pos hc]

/-- Witness for C1 (amended) on a concrete two-file directory. -/
theorem organize_undo_roundtrip_witness :
    ∃ fs1 total fs2 cnt,
      organize (fun _ => false) ⟨["notes.txt", "photo.png"], [], none⟩ = .ok (fs1, total) ∧
      undo fs1 = (fs2, .done cnt) ∧
      (∀ f ∈ (⟨["notes.txt", "photo.png"], [], none⟩ : FS).rootFiles, f ∈ fs2.rootFiles) ∧
      (∀ c ∈ ALL_CATEGORIES, hasDir fs2.dirs c = false) ∧
      fs2.ledger = none :=
  organize_undo_roundtrip ⟨["notes.txt", "photo.png"], [], none⟩
    (by decide) (by decide) (by decide)

end Organizer
